import Mathlib

/-!
Verification development for the distributed task-execution core described by
the repository's specification, together with the notebook-level functions
(`generate_fibonacci`, `run_local`, `run_remote`) found in
`src/Ray_Core_1_Remote_Functions.ipynb`.

The notebook itself only calls into the framework; the scheduler, worker pool,
object store and future abstraction are therefore modelled from the spec
(each such definition's doc comment starts with `Modelled from the spec:`).
The Fibonacci functions are translated directly from the notebook source.
-/

namespace RayCore

/-- Modelled from the spec: the state of a TaskRecord,
`Queued → Running → {Completed, Failed}` (§3).  `Running` carries the owning
worker id, `Completed` the result key in the object store, `Failed` the
captured error description. -/
inductive TaskState where
  | Queued : TaskState
  | Running : Nat → TaskState
  | Completed : Nat → TaskState
  | Failed : String → TaskState
deriving DecidableEq

/-- A task state is terminal when it is `Completed` or `Failed`. -/
def TaskState.isTerminal : TaskState → Bool
  | .Completed _ => true
  | .Failed _ => true
  | _ => false

/-- Modelled from the spec: a TaskRecord (§3): task id, callable reference,
argument sequence, current state.  The callable may raise, which we model by
returning `Except String V`. -/
structure TaskRecord (V : Type) where
  id : Nat
  callable : List V → Except String V
  args : List V
  state : TaskState

/-- Modelled from the spec: a Future (§3): the task id it denotes plus a
cached copy of the resolved value once fetched. -/
structure Future (V : Type) where
  taskId : Nat
  cached : Option V
deriving DecidableEq

/-- Modelled from the spec: the error taxonomy surfaced by `get` (§7).
`Pending` marks the blocking wait of `get` on an unresolved future. -/
inductive GetError where
  | KeyNotFound : GetError
  | TaskFailed : String → GetError
  | Timeout : GetError
  | Pending : GetError
deriving DecidableEq

/-- Modelled from the spec: the coordinator state (§5): the shared object
store (key-to-value mapping plus the next fresh key) and the scheduler's
task-id-to-record map plus the next fresh task id. -/
structure SchedState (V : Type) where
  store : Nat → Option V
  nextKey : Nat
  tasks : Nat → Option (TaskRecord V)
  nextTaskId : Nat

/-- Modelled from the spec: the freshly started runtime: empty store, no
tasks. -/
def initState (V : Type) : SchedState V :=
  ⟨fun _ => none, 0, fun _ => none, 0⟩

/-- Modelled from the spec: `put(value) -> key` (§4.1) stores a value under a
fresh sequence-number key and returns the key. -/
def put {V : Type} (v : V) (s : SchedState V) : Nat × SchedState V :=
  (s.nextKey,
   { s with store := fun k => if k = s.nextKey then some v else s.store k,
            nextKey := s.nextKey + 1 })

/-- Modelled from the spec: `get(key) -> value` on the object store (§4.1):
returns the stored value or fails with `KeyNotFound` if absent. -/
def storeGet {V : Type} (k : Nat) (s : SchedState V) : Except GetError V :=
  match s.store k with
  | some v => .ok v
  | none => .error .KeyNotFound

/-- Modelled from the spec: `submit(callable_ref, args) -> Future` (§4.2):
creates a TaskRecord in `Queued` state under a fresh task id and returns a
Future bound to that id immediately, without running the callable. -/
def submit {V : Type} (f : List V → Except String V) (args : List V)
    (s : SchedState V) : Future V × SchedState V :=
  (⟨s.nextTaskId, none⟩,
   { s with tasks := fun n => if n = s.nextTaskId
                              then some ⟨s.nextTaskId, f, args, .Queued⟩
                              else s.tasks n,
            nextTaskId := s.nextTaskId + 1 })

/-- Modelled from the spec: the dispatch transition (§4.2): a `Queued` task is
assigned to an idle worker and becomes `Running`; any other state is left
untouched. -/
def dispatch {V : Type} (id w : Nat) (s : SchedState V) : SchedState V :=
  match s.tasks id with
  | some t =>
    match t.state with
    | .Queued =>
      { s with tasks := fun n => if n = id
                                 then some { t with state := .Running w }
                                 else s.tasks n }
    | _ => s
  | none => s

/-- Modelled from the spec: the completion transition (§4.3): the worker
running the task invokes the callable on its arguments; on success it `put`s
the result into the store and the record becomes `Completed` with the result
key, on a raised error the record becomes `Failed` with the error's
description.  Tasks not in `Running` state are left untouched. -/
def finishTask {V : Type} (id : Nat) (s : SchedState V) : SchedState V :=
  match s.tasks id with
  | some t =>
    match t.state with
    | .Running _ =>
      match t.callable t.args with
      | .ok v =>
        let ks := put v s
        { ks.2 with tasks := fun n => if n = id
                                      then some { t with state := .Completed ks.1 }
                                      else ks.2.tasks n }
      | .error e =>
        { s with tasks := fun n => if n = id
                                   then some { t with state := .Failed e }
                                   else s.tasks n }
    | _ => s
  | none => s

/-- A scheduler event: either a dispatch of a task to a worker or the
completion report of a task.  A list of events encodes one interleaving of
the concurrent execution; completion order is unconstrained (§5). -/
inductive Event where
  | dispatch : Nat → Nat → Event
  | finish : Nat → Event

/-- One scheduler step. -/
def schedStep {V : Type} (s : SchedState V) (e : Event) : SchedState V :=
  match e with
  | .dispatch id w => dispatch id w s
  | .finish id => finishTask id s

/-- Run a sequence of scheduler events. -/
def runEvents {V : Type} (evs : List Event) (s : SchedState V) : SchedState V :=
  evs.foldl schedStep s

/-- Modelled from the spec: resolve a future against the scheduler state: on
`Completed` fetch the value from the store by result key, on `Failed`
re-surface the captured error as `TaskFailed`, otherwise the caller would
block (`Pending`). -/
def resolve {V : Type} (fut : Future V) (s : SchedState V) : Except GetError V :=
  match s.tasks fut.taskId with
  | some t =>
    match t.state with
    | .Completed k => storeGet k s
    | .Failed e => .error (.TaskFailed e)
    | _ => .error .Pending
  | none => .error .KeyNotFound

/-- Modelled from the spec: blocking `get` on a future (§4.2), returning the
result, the (possibly cache-updated) future, and the number of object-store
fetches performed.  A resolved value is cached on the future; a later `get`
returns the cached copy with no store fetch. -/
def get {V : Type} (fut : Future V) (s : SchedState V) :
    Except GetError V × Future V × Nat :=
  match fut.cached with
  | some v => (.ok v, fut, 0)
  | none =>
    match s.tasks fut.taskId with
    | some t =>
      match t.state with
      | .Completed k =>
        match s.store k with
        | some v => (.ok v, { fut with cached := some v }, 1)
        | none => (.error .KeyNotFound, fut, 1)
      | .Failed e => (.error (.TaskFailed e), fut, 0)
      | _ => (.error .Pending, fut, 0)
    | none => (.error .KeyNotFound, fut, 0)

/-- Modelled from the spec: `get(future, timeout)` (§4.2, §5): blocks until
the record is terminal or the wait budget elapses; when the budget elapses on
a non-terminal task it signals `Timeout`, leaving the future and the whole
scheduler state unchanged (no cancellation).  Returns result, future and
state. -/
def getTimeout {V : Type} (fut : Future V) (timeout : Option Nat)
    (s : SchedState V) : Except GetError V × Future V × SchedState V :=
  match fut.cached with
  | some v => (.ok v, fut, s)
  | none =>
    match s.tasks fut.taskId with
    | some t =>
      match t.state with
      | .Completed k =>
        match s.store k with
        | some v => (.ok v, { fut with cached := some v }, s)
        | none => (.error .KeyNotFound, fut, s)
      | .Failed e => (.error (.TaskFailed e), fut, s)
      | _ =>
        match timeout with
        | some _ => (.error .Timeout, fut, s)
        | none => (.error .Pending, fut, s)
    | none => (.error .KeyNotFound, fut, s)

/-- Modelled from the spec: `get_many(futures)` (§4.2) resolves each future
and returns the values in the order of the input futures (submission order),
or the first failure. -/
def get_many {V : Type} (futs : List (Future V)) (s : SchedState V) :
    Except GetError (List V) :=
  match futs with
  | [] => .ok []
  | f :: rest =>
    match resolve f s, get_many rest s with
    | .ok v, .ok vs => .ok (v :: vs)
    | .error e, _ => .error e
    | .ok _, .error e => .error e

/-- A submission: a callable together with its arguments. -/
def Job (V : Type) : Type := (List V → Except String V) × List V

/-- Submit a batch of jobs in order, collecting their futures. -/
def submitAll {V : Type} (jobs : List (Job V)) (s : SchedState V) :
    List (Future V) × SchedState V :=
  match jobs with
  | [] => ([], s)
  | j :: rest =>
    let fs := submit j.1 j.2 s
    let rest' := submitAll rest fs.2
    (fs.1 :: rest'.1, rest'.2)

/-- The futures returned for a batch of jobs submitted to a fresh runtime. -/
def futuresOf {V : Type} (jobs : List (Job V)) : List (Future V) :=
  (submitAll jobs (initState V)).1

/-- The scheduler state after submitting a batch of jobs to a fresh runtime
and then running a sequence of events. -/
def runJobs {V : Type} (jobs : List (Job V)) (evs : List Event) : SchedState V :=
  runEvents evs (submitAll jobs (initState V)).2

/-- All of the first `n` task records exist and are terminal. -/
def allTerminal {V : Type} (s : SchedState V) (n : Nat) : Bool :=
  (List.range n).all fun i =>
    match s.tasks i with
    | some t => t.state.isTerminal
    | none => false

/-- The task-state transitions the spec allows (§3 invariants): a state may
stay put, `Queued` may start `Running`, and a `Running` task may reach
`Completed` or `Failed`.  Nothing ever re-enters `Queued` and terminal states
never change. -/
def allowedTransition (a b : TaskState) : Bool :=
  a = b ||
  match a, b with
  | .Queued, .Running _ => true
  | .Running _, .Completed _ => true
  | .Running _, .Failed _ => true
  | _, _ => false

/-- One iteration of the loop in the notebook's `generate_fibonacci`: for
index `i`, append `i` itself when `i < 2`, otherwise append the sum of the
two previously appended elements. -/
def fibAppend (acc : List Nat) (i : Nat) : List Nat :=
  if i < 2 then acc ++ [i]
  else acc ++ [acc.getD (i - 1) 0 + acc.getD (i - 2) 0]

/-- The list built by the loop of `generate_fibonacci` over
`range(0, sequence_size)`. -/
def fibLoop (sequence_size : Nat) : List Nat :=
  (List.range sequence_size).foldl fibAppend []

/-- The notebook's `generate_fibonacci(sequence_size)`: build the Fibonacci
list and return its length. -/
def generate_fibonacci (sequence_size : Nat) : Nat :=
  (fibLoop sequence_size).length

/-- The notebook's `@ray.remote generate_fibonacci_distributed`, as a
registered callable of the core: it expects the single argument
`sequence_size` and returns `generate_fibonacci(sequence_size)`. -/
def generate_fibonacci_distributed (args : List Nat) : Except String Nat :=
  match args with
  | [n] => .ok (generate_fibonacci n)
  | _ => .error "bad arguments"

/-- The notebook's `run_local(sequence_size)`: evaluate `generate_fibonacci`
once per CPU in a list comprehension, serially. -/
def run_local (sequence_size cpu_count : Nat) : List Nat :=
  (List.range cpu_count).map fun _ => generate_fibonacci sequence_size

/-- The jobs submitted by the notebook's `run_remote(sequence_size)`: one
`generate_fibonacci_distributed.remote(sequence_size)` call per CPU. -/
def run_remote_jobs (sequence_size cpu_count : Nat) : List (Job Nat) :=
  (List.range cpu_count).map fun _ => (generate_fibonacci_distributed, [sequence_size])

/-- The notebook's `run_remote(sequence_size)`: submit the remote tasks, let
the cluster execute them under some interleaving `evs`, and gather the
futures with `ray.get` (`get_many`). -/
def run_remote (sequence_size cpu_count : Nat) (evs : List Event) :
    Except GetError (List Nat) :=
  get_many (futuresOf (run_remote_jobs sequence_size cpu_count))
    (runJobs (run_remote_jobs sequence_size cpu_count) evs)

/-- Modelled from the spec: FIFO dispatch over two workers (§4.2, §8): each
task duration is assigned, in submission order, to the worker that is free
first; a worker's clock advances by the duration of each task it runs. -/
def assignNext (clocks : Nat × Nat) (d : Nat) : Nat × Nat :=
  if clocks.1 ≤ clocks.2 then (clocks.1 + d, clocks.2) else (clocks.1, clocks.2 + d)

/-- Modelled from the spec: the two workers' busy clocks after FIFO-running a
list of task durations. -/
def twoWorkerClocks (ds : List Nat) : Nat × Nat :=
  ds.foldl assignNext (0, 0)

/-- Modelled from the spec: the wall-clock time of the parallel run with two
workers: the later of the two workers' finish times. -/
def makespan (ds : List Nat) : Nat :=
  max (twoWorkerClocks ds).1 (twoWorkerClocks ds).2

/-! ### Basic facts about batch submission -/

theorem submitAll_store {V : Type} (jobs : List (Job V)) (s : SchedState V) :
    (submitAll jobs s).2.store = s.store ∧ (submitAll jobs s).2.nextKey = s.nextKey := by
  induction jobs generalizing s with
  | nil => exact ⟨rfl, rfl⟩
  | cons j rest ih => simpa [submitAll, submit] using ih _

theorem submitAll_nextTaskId {V : Type} (jobs : List (Job V)) (s : SchedState V) :
    (submitAll jobs s).2.nextTaskId = s.nextTaskId + jobs.length := by
  induction jobs generalizing s with
  | nil => simp [submitAll]
  | cons j rest ih =>
    simp only [submitAll, submit]
    rw [ih]
    simp only [List.length_cons]
    omega

theorem submitAll_tasks_old {V : Type} (jobs : List (Job V)) (s : SchedState V) (i : Nat)
    (h : i < s.nextTaskId ∨ s.nextTaskId + jobs.length ≤ i) :
    (submitAll jobs s).2.tasks i = s.tasks i := by
  induction jobs generalizing s with
  | nil => rfl
  | cons j rest ih =>
    simp only [submitAll]
    rw [ih]
    · simp only [submit]
      have : ¬ i = s.nextTaskId := by
        simp only [List.length_cons] at h
        omega
      simp [this]
    · simp only [submit, List.length_cons] at h ⊢
      omega

theorem submitAll_tasks_new {V : Type} (jobs : List (Job V)) (s : SchedState V)
    (d : Nat) (h : d < jobs.length) :
    (submitAll jobs s).2.tasks (s.nextTaskId + d) =
      some ⟨s.nextTaskId + d, (jobs.get ⟨d, h⟩).1, (jobs.get ⟨d, h⟩).2, .Queued⟩ := by
  induction jobs generalizing s d with
  | nil => simp at h
  | cons j rest ih =>
    match d with
    | 0 =>
      simp only [submitAll]
      rw [submitAll_tasks_old]
      · simp [submit]
      · simp only [submit]
        omega
    | d + 1 =>
      simp only [submitAll]
      have hd : d < rest.length := by simpa using Nat.lt_of_succ_lt_succ h
      have := ih (submit j.1 j.2 s).2 d hd
      simp only [submit] at this
      have harith : s.nextTaskId + (d + 1) = s.nextTaskId + 1 + d := by omega
      rw [harith]
      exact this

theorem submitAll_futures {V : Type} (jobs : List (Job V)) (s : SchedState V) :
    (submitAll jobs s).1 =
      (List.range jobs.length).map fun d => (⟨s.nextTaskId + d, none⟩ : Future V) := by
  induction jobs generalizing s with
  | nil => simp [submitAll]
  | cons j rest ih =>
    simp only [submitAll, List.length_cons, List.range_succ_eq_map, List.map_cons,
      List.map_map]
    refine congrArg₂ _ (by simp [submit]) ?_
    rw [ih]
    refine List.map_congr_left fun d _ => ?_
    simp [submit, Function.comp]
    omega

theorem futuresOf_eq {V : Type} (jobs : List (Job V)) :
    futuresOf jobs = (List.range jobs.length).map fun i => (⟨i, none⟩ : Future V) := by
  rw [futuresOf, submitAll_futures]
  simp [initState]

/-! ### The reachable-state invariant -/

/-- The invariant tying the scheduler state reachable from submitting `jobs`
to a fresh runtime back to the submitted jobs: store keys below `nextKey`
only; exactly the submitted task ids are present, each record keeping its
submitted callable and arguments; a `Completed` record's result key holds the
value its callable returns; a `Failed` record's error is the one its callable
raises. -/
structure Inv {V : Type} (jobs : List (Job V)) (s : SchedState V) : Prop where
  keys : ∀ k, s.nextKey ≤ k → s.store k = none
  outside : ∀ i, jobs.length ≤ i → s.tasks i = none
  core : ∀ i, (h : i < jobs.length) → ∃ t, s.tasks i = some t ∧ t.id = i ∧
    t.callable = (jobs.get ⟨i, h⟩).1 ∧ t.args = (jobs.get ⟨i, h⟩).2
  comp : ∀ i t k, s.tasks i = some t → t.state = .Completed k →
    k < s.nextKey ∧ ∃ v, t.callable t.args = .ok v ∧ s.store k = some v
  failed : ∀ i t e, s.tasks i = some t → t.state = .Failed e →
    t.callable t.args = .error e

theorem inv_submitAll {V : Type} (jobs : List (Job V)) :
    Inv jobs (submitAll jobs (initState V)).2 := by
  have hstore := submitAll_store jobs (initState V)
  constructor
  · intro k _
    rw [hstore.1]; rfl
  · intro i hi
    rw [submitAll_tasks_old jobs (initState V) i (by simp [initState]; omega)]
    rfl
  · intro i h
    have := submitAll_tasks_new jobs (initState V) i h
    simp only [initState, Nat.zero_add] at this
    exact ⟨_, this, rfl, rfl, rfl⟩
  · intro i t k ht hst
    by_cases hi : i < jobs.length
    · have := submitAll_tasks_new jobs (initState V) i hi
      rw [show (initState V).nextTaskId = 0 from rfl, Nat.zero_add] at this
      rw [this] at ht
      cases ht
      simp at hst
    · rw [submitAll_tasks_old jobs (initState V) i (by simp [initState]; omega)] at ht
      exact absurd ht (by simp [initState])
  · intro i t e ht hst
    by_cases hi : i < jobs.length
    · have := submitAll_tasks_new jobs (initState V) i hi
      rw [show (initState V).nextTaskId = 0 from rfl, Nat.zero_add] at this
      rw [this] at ht
      cases ht
      simp at hst
    · rw [submitAll_tasks_old jobs (initState V) i (by simp [initState]; omega)] at ht
      exact absurd ht (by simp [initState])

/-- Updating the state of one existing task preserves the invariant, provided
the new state's `Completed`/`Failed` payloads are justified. -/
theorem inv_update_state {V : Type} {jobs : List (Job V)} {s : SchedState V}
    (hI : Inv jobs s) (id : Nat) (t : TaskRecord V) (st : TaskState)
    (hts : s.tasks id = some t)
    (hcomp : ∀ k, st = .Completed k →
      k < s.nextKey ∧ ∃ v, t.callable t.args = .ok v ∧ s.store k = some v)
    (hfail : ∀ e, st = .Failed e → t.callable t.args = .error e) :
    Inv jobs { s with tasks := fun n => if n = id
                                        then some { t with state := st }
                                        else s.tasks n } := by
  constructor
  · exact hI.keys
  · intro i hi
    show (if i = id then _ else s.tasks i) = none
    have hne : ¬ i = id := by
      intro hii
      subst hii
      rw [hI.outside _ hi] at hts
      cases hts
    rw [if_neg hne]
    exact hI.outside i hi
  · intro i h
    obtain ⟨t', ht', hid, hc, ha⟩ := hI.core i h
    by_cases hii : i = id
    · subst hii
      rw [hts] at ht'
      cases ht'
      exact ⟨{ t with state := st }, by simp, hid, hc, ha⟩
    · exact ⟨t', by show (if i = id then _ else s.tasks i) = _; rw [if_neg hii]; exact ht', hid, hc, ha⟩
  · intro i u k htu hstu
    have htu' : (if i = id then some { t with state := st } else s.tasks i) = some u := htu
    by_cases hii : i = id
    · rw [if_pos hii] at htu'
      cases htu'
      have := hcomp k hstu
      exact ⟨this.1, this.2⟩
    · rw [if_neg hii] at htu'
      exact hI.comp i u k htu' hstu
  · intro i u e htu hstu
    have htu' : (if i = id then some { t with state := st } else s.tasks i) = some u := htu
    by_cases hii : i = id
    · rw [if_pos hii] at htu'
      cases htu'
      exact hfail e hstu
    · rw [if_neg hii] at htu'
      exact hI.failed i u e htu' hstu

/-- Extending the store with a fresh key preserves the invariant. -/
theorem inv_putStore {V : Type} {jobs : List (Job V)} {s : SchedState V}
    (hI : Inv jobs s) (v : V) : Inv jobs (put v s).2 := by
  constructor
  · intro k hk
    show (if k = s.nextKey then some v else s.store k) = none
    have hne : ¬ k = s.nextKey := by
      simp only [put] at hk
      omega
    rw [if_neg hne]
    exact hI.keys k (by simp only [put] at hk; omega)
  · exact hI.outside
  · exact hI.core
  · intro i u k htu hstu
    obtain ⟨hk, w, hw, hsw⟩ := hI.comp i u k htu hstu
    refine ⟨by simp only [put]; omega, w, hw, ?_⟩
    show (if k = s.nextKey then some v else s.store k) = some w
    rw [if_neg (by omega)]
    exact hsw
  · exact hI.failed

/-- Dispatching preserves the invariant. -/
theorem inv_dispatch {V : Type} {jobs : List (Job V)} {s : SchedState V}
    (hI : Inv jobs s) (id w : Nat) : Inv jobs (dispatch id w s) := by
  unfold dispatch
  split
  next t hts =>
    split
    next hst => exact inv_update_state hI id t (.Running w) hts (by intro k h; cases h) (by intro e h; cases h)
    next => exact hI
  next => exact hI

/-- Completing a running task preserves the invariant. -/
theorem inv_finishTask {V : Type} {jobs : List (Job V)} {s : SchedState V}
    (hI : Inv jobs s) (id : Nat) : Inv jobs (finishTask id s) := by
  unfold finishTask
  split
  next t hts =>
    split
    next w hst =>
      split
      next v hcall =>
        refine inv_update_state (inv_putStore hI v) id t (.Completed (put v s).1) ?_ ?_ ?_
        · exact hts
        · intro k hk
          cases hk
          refine ⟨by simp [put], v, hcall, ?_⟩
          show (if (put v s).1 = s.nextKey then some v else s.store (put v s).1) = some v
          simp [put]
        · intro e h
          cases h
      next e hcall =>
        exact inv_update_state hI id t (.Failed e) hts (by intro k h; cases h)
          (fun e' h => by cases h; exact hcall)
    next => exact hI
  next => exact hI

/-- A scheduler step preserves the invariant. -/
theorem inv_schedStep {V : Type} {jobs : List (Job V)} {s : SchedState V}
    (hI : Inv jobs s) (e : Event) : Inv jobs (schedStep s e) := by
  cases e with
  | dispatch id w => exact inv_dispatch hI id w
  | finish id => exact inv_finishTask hI id

/-- Running any event sequence preserves the invariant. -/
theorem inv_runEvents {V : Type} {jobs : List (Job V)} {s : SchedState V}
    (hI : Inv jobs s) (evs : List Event) : Inv jobs (runEvents evs s) := by
  induction evs generalizing s with
  | nil => exact hI
  | cons e rest ih => exact ih (inv_schedStep hI e)

/-- The state reached by submitting a batch of jobs to a fresh runtime and
running any event interleaving satisfies the invariant. -/
theorem inv_runJobs {V : Type} (jobs : List (Job V)) (evs : List Event) :
    Inv jobs (runJobs jobs evs) :=
  inv_runEvents (inv_submitAll jobs) evs

/-! ### Resolving futures in a reachable state -/

theorem allTerminal_elim {V : Type} {s : SchedState V} {n i : Nat}
    (h : allTerminal s n = true) (hi : i < n) :
    ∃ t, s.tasks i = some t ∧ t.state.isTerminal = true := by
  unfold allTerminal at h
  rw [List.all_eq_true] at h
  have hh := h i (List.mem_range.mpr hi)
  cases hts : s.tasks i with
  | none => rw [hts] at hh; cases hh
  | some t => rw [hts] at hh; exact ⟨t, rfl, hh⟩

/-- In a reachable state, a terminal task whose callable returns `v` resolves
to `v`. -/
theorem resolve_completed {V : Type} {jobs : List (Job V)} {s : SchedState V}
    (hI : Inv jobs s) {fut : Future V} {i : Nat} (hi : i < jobs.length)
    (hfid : fut.taskId = i) {v : V}
    (hok : (jobs.get ⟨i, hi⟩).1 (jobs.get ⟨i, hi⟩).2 = Except.ok v)
    (ht : ∃ t, s.tasks i = some t ∧ t.state.isTerminal = true) :
    resolve fut s = Except.ok v := by
  obtain ⟨t, hts, htt⟩ := ht
  obtain ⟨t', ht', hid, hc, ha⟩ := hI.core i hi
  rw [hts] at ht'
  cases ht'
  cases hst : t.state with
  | Queued => simp [TaskState.isTerminal, hst] at htt
  | Running w => simp [TaskState.isTerminal, hst] at htt
  | Failed e =>
    exfalso
    have hfe := hI.failed i t e hts hst
    rw [hc, ha] at hfe
    rw [hfe] at hok
    cases hok
  | Completed k =>
    obtain ⟨hk, w, hw, hsw⟩ := hI.comp i t k hts hst
    rw [hc, ha] at hw
    rw [hw] at hok
    cases hok
    simp only [resolve, hfid, hts, hst, storeGet, hsw]

/-- In a reachable state, a terminal task whose callable raises `e` resolves
to `TaskFailed e`, the captured cause verbatim. -/
theorem resolve_failed {V : Type} {jobs : List (Job V)} {s : SchedState V}
    (hI : Inv jobs s) {fut : Future V} {i : Nat} (hi : i < jobs.length)
    (hfid : fut.taskId = i) {e : String}
    (herr : (jobs.get ⟨i, hi⟩).1 (jobs.get ⟨i, hi⟩).2 = Except.error e)
    (ht : ∃ t, s.tasks i = some t ∧ t.state.isTerminal = true) :
    resolve fut s = Except.error (GetError.TaskFailed e) := by
  obtain ⟨t, hts, htt⟩ := ht
  obtain ⟨t', ht', hid, hc, ha⟩ := hI.core i hi
  rw [hts] at ht'
  cases ht'
  cases hst : t.state with
  | Queued => simp [TaskState.isTerminal, hst] at htt
  | Running w => simp [TaskState.isTerminal, hst] at htt
  | Completed k =>
    exfalso
    obtain ⟨hk, w, hw, hsw⟩ := hI.comp i t k hts hst
    rw [hc, ha] at hw
    rw [hw] at herr
    cases herr
  | Failed e2 =>
    have hfe := hI.failed i t e2 hts hst
    rw [hc, ha] at hfe
    rw [hfe] at herr
    cases herr
    simp only [resolve, hfid, hts, hst]

/-- The gather returns exactly the per-future resolutions, in input order. -/
theorem get_many_ok {V : Type} {s : SchedState V} {futs : List (Future V)}
    {vals : List V}
    (h : List.Forall₂ (fun f v => resolve f s = Except.ok v) futs vals) :
    get_many futs s = Except.ok vals := by
  induction h with
  | nil => rfl
  | cons hfv _ ih => simp only [get_many, hfv, ih]

theorem futuresOf_length {V : Type} (jobs : List (Job V)) :
    (futuresOf jobs).length = jobs.length := by
  rw [futuresOf_eq]
  simp

theorem futuresOf_get {V : Type} (jobs : List (Job V)) (i : Nat)
    (h : i < (futuresOf jobs).length) :
    (futuresOf jobs).get ⟨i, h⟩ = (⟨i, none⟩ : Future V) := by
  have hi : i < jobs.length := by rw [← futuresOf_length jobs]; exact h
  simp [futuresOf_eq, List.get_eq_getElem]

theorem mem_futuresOf {V : Type} {jobs : List (Job V)} {fut : Future V}
    (h : fut ∈ futuresOf jobs) : fut.taskId < jobs.length ∧ fut.cached = none := by
  rw [futuresOf_eq] at h
  simp only [List.mem_map, List.mem_range] at h
  obtain ⟨i, hi, rfl⟩ := h
  exact ⟨hi, rfl⟩

/-! ### Fibonacci facts -/

theorem fibLoop_eq_map_fib (n : Nat) :
    fibLoop n = (List.range n).map Nat.fib := by
  induction n with
  | zero => rfl
  | succ n ih =>
    rw [fibLoop, List.range_succ, List.foldl_append]
    rw [show (List.range n).foldl fibAppend [] = fibLoop n from rfl, ih]
    simp only [List.foldl_cons, List.foldl_nil]
    rw [List.map_append]
    unfold fibAppend
    by_cases h2 : n < 2
    · rw [if_pos h2]
      congr 1
      interval_cases n <;> rfl
    · rw [if_neg h2]
      congr 1
      have g1 : ((List.range n).map Nat.fib).getD (n - 1) 0 = Nat.fib (n - 1) := by
        rw [List.getD_eq_getElem _ _ (by simp; omega)]
        simp
      have g2 : ((List.range n).map Nat.fib).getD (n - 2) 0 = Nat.fib (n - 2) := by
        rw [List.getD_eq_getElem _ _ (by simp; omega)]
        simp
      rw [g1, g2]
      obtain ⟨m, rfl⟩ : ∃ m, n = m + 2 := ⟨n - 2, by omega⟩
      simp only [Nat.add_sub_cancel, show m + 2 - 1 = m + 1 from by omega,
        List.map_cons, List.map_nil]
      rw [Nat.fib_add_two]
      simp [Nat.add_comm]

/-! ### Claim theorems -/

/-- C1: for every sequence of submitted tasks, resolving their futures with
`get_many` returns the results in submission order, whatever the order in
which the tasks were dispatched and completed (`evs` is an arbitrary
interleaving under which every task reached a terminal state). -/
theorem get_many_preserves_submission_order {V : Type} (jobs : List (Job V))
    (vals : List V) (evs : List Event)
    (hvals : List.Forall₂ (fun (j : Job V) v => j.1 j.2 = Except.ok v) jobs vals)
    (hterm : allTerminal (runJobs jobs evs) jobs.length = true) :
    get_many (futuresOf jobs) (runJobs jobs evs) = Except.ok vals := by
  have hI := inv_runJobs jobs evs
  apply get_many_ok
  rw [List.forall₂_iff_get] at hvals ⊢
  obtain ⟨hlen, hget⟩ := hvals
  refine ⟨by rw [futuresOf_length]; exact hlen, ?_⟩
  intro i h1 h2
  have hi : i < jobs.length := by rw [← futuresOf_length jobs]; exact h1
  rw [futuresOf_get jobs i h1]
  exact resolve_completed hI hi rfl (hget i hi h2) (allTerminal_elim hterm hi)

/-- Three tasks whose callables return 10, 20 and 30. -/
def jobsC1 : List (Job Nat) :=
  [(fun _ => Except.ok 10, []), (fun _ => Except.ok 20, []), (fun _ => Except.ok 30, [])]

/-- An interleaving that completes the three tasks in reverse order. -/
def evsC1 : List Event :=
  [.dispatch 2 0, .finish 2, .dispatch 1 1, .finish 1, .dispatch 0 0, .finish 0]

/-- Witness for C1: three tasks completed in reverse submission order still
gather as `[10, 20, 30]`. -/
theorem get_many_preserves_submission_order_witness :
    get_many (futuresOf jobsC1) (runJobs jobsC1 evsC1) = Except.ok [10, 20, 30] :=
  get_many_preserves_submission_order jobsC1 [10, 20, 30] evsC1
    (.cons rfl (.cons rfl (.cons rfl .nil))) rfl

/-- C2: gathering the futures of the remote Fibonacci tasks yields exactly
the list the serial `run_local` computes, element by element, for every
`sequence_size`, every CPU count and every completing interleaving. -/
theorem run_remote_refines_run_local (sequence_size cpu_count : Nat)
    (evs : List Event)
    (hterm : allTerminal (runJobs (run_remote_jobs sequence_size cpu_count) evs)
      (run_remote_jobs sequence_size cpu_count).length = true) :
    run_remote sequence_size cpu_count evs
      = Except.ok (run_local sequence_size cpu_count) := by
  unfold run_remote
  have hI := inv_runJobs (run_remote_jobs sequence_size cpu_count) evs
  apply get_many_ok
  rw [List.forall₂_iff_get]
  have hlenj : (run_remote_jobs sequence_size cpu_count).length = cpu_count := by
    simp [run_remote_jobs]
  have hlenl : (run_local sequence_size cpu_count).length = cpu_count := by
    simp [run_local]
  refine ⟨by rw [futuresOf_length, hlenj, hlenl], ?_⟩
  intro i h1 h2
  have hi : i < (run_remote_jobs sequence_size cpu_count).length := by
    rw [← futuresOf_length (run_remote_jobs sequence_size cpu_count)]
    exact h1
  rw [futuresOf_get _ i h1]
  refine resolve_completed hI hi rfl ?_ (allTerminal_elim hterm hi)
  simp [run_remote_jobs, run_local, List.get_eq_getElem, generate_fibonacci_distributed]

/-- Witness for C2: two CPUs, sequence size 5, tasks completed in reverse
order; the gathered list equals the serial one. -/
theorem run_remote_refines_run_local_witness :
    run_remote 5 2 [.dispatch 1 0, .finish 1, .dispatch 0 1, .finish 0]
      = Except.ok (run_local 5 2) :=
  run_remote_refines_run_local 5 2
    [.dispatch 1 0, .finish 1, .dispatch 0 1, .finish 0] rfl

/-- C3: the notebook's `generate_fibonacci` builds the list of the first `n`
Fibonacci numbers (starting 0, 1) and returns that list's length, which is
`n` itself — not any Fibonacci value — and the remote wrapper
`generate_fibonacci_distributed` propagates exactly that count. -/
theorem generate_fibonacci_returns_count (n : Nat) :
    fibLoop n = (List.range n).map Nat.fib ∧
    generate_fibonacci n = n ∧
    generate_fibonacci_distributed [n] = Except.ok n := by
  have hg : generate_fibonacci n = n := by
    rw [generate_fibonacci, fibLoop_eq_map_fib]
    simp
  exact ⟨fibLoop_eq_map_fib n, hg, by simp [generate_fibonacci_distributed, hg]⟩

/-- C4: when task `i`'s callable raises error `e` and every task has reached
a terminal state, resolving the future handed out for task `i` surfaces
`TaskFailed e` — the captured cause verbatim, never swallowed — while every
future whose task's callable succeeded resolves to its value, so no future
other than the failing task's becomes failed. -/
theorem task_failure_propagates {V : Type} (jobs : List (Job V)) (i : Nat)
    (hi : i < jobs.length) (e : String) (evs : List Event)
    (hfl : (jobs.get ⟨i, hi⟩).1 (jobs.get ⟨i, hi⟩).2 = Except.error e)
    (hterm : allTerminal (runJobs jobs evs) jobs.length = true) :
    (∀ fut ∈ futuresOf jobs, fut.taskId = i →
        resolve fut (runJobs jobs evs) = Except.error (GetError.TaskFailed e)) ∧
    (∀ fut ∈ futuresOf jobs, ∀ (j : Nat) (hj : j < jobs.length) (v : V),
        fut.taskId = j →
        (jobs.get ⟨j, hj⟩).1 (jobs.get ⟨j, hj⟩).2 = Except.ok v →
        resolve fut (runJobs jobs evs) = Except.ok v) := by
  have hI := inv_runJobs jobs evs
  constructor
  · intro fut _ hfid
    exact resolve_failed hI hi hfid hfl (allTerminal_elim hterm hi)
  · intro fut _ j hj v hfid hok
    exact resolve_completed hI hj hfid hok (allTerminal_elim hterm hj)

/-- Three tasks, the middle one raising an error. -/
def jobsC4 : List (Job Nat) :=
  [(fun _ => Except.ok 1, []), (fun _ => Except.error "boom", []),
   (fun _ => Except.ok 3, [])]

/-- An interleaving completing all three tasks. -/
def evsC4 : List Event :=
  [.dispatch 0 0, .dispatch 1 1, .finish 1, .finish 0, .dispatch 2 1, .finish 2]

/-- Witness for C4: the middle task's future surfaces `TaskFailed "boom"`;
the futures of the succeeding tasks resolve to their values. -/
theorem task_failure_propagates_witness :
    (∀ fut ∈ futuresOf jobsC4, fut.taskId = 1 →
        resolve fut (runJobs jobsC4 evsC4)
          = Except.error (GetError.TaskFailed "boom")) ∧
    (∀ fut ∈ futuresOf jobsC4, ∀ (j : Nat) (hj : j < jobsC4.length) (v : Nat),
        fut.taskId = j →
        (jobsC4.get ⟨j, hj⟩).1 (jobsC4.get ⟨j, hj⟩).2 = Except.ok v →
        resolve fut (runJobs jobsC4 evsC4) = Except.ok v) :=
  task_failure_propagates jobsC4 1 (by decide) "boom" evsC4 rfl rfl

/-- C5: `submit` hands back the future for the fresh task id immediately: the
new record is still `Queued` (the callable has not been executed), the object
store holds no result yet, and the returned future does not depend on the
submitted callable's behaviour at all.  Blocking is modelled solely by the
`Pending`/`Timeout` outcomes, which only `get`/`get_many` produce. -/
theorem submit_nonblocking {V : Type} (f : List V → Except String V)
    (args : List V) (s : SchedState V) :
    (submit f args s).1 = ⟨s.nextTaskId, none⟩ ∧
    (submit f args s).2.tasks s.nextTaskId
      = some ⟨s.nextTaskId, f, args, .Queued⟩ ∧
    (submit f args s).2.store = s.store ∧
    (∀ g : List V → Except String V, (submit g args s).1 = (submit f args s).1) := by
  refine ⟨rfl, ?_, rfl, fun g => rfl⟩
  show (if s.nextTaskId = s.nextTaskId then _ else _) = _
  rw [if_pos rfl]

/-- C6: `put` stores a value under a fresh key and `get` on that key returns
exactly the stored value; store `get` fails with `KeyNotFound` precisely when
no entry exists for the key. -/
theorem put_get_roundtrip {V : Type} (v : V) (s : SchedState V) :
    storeGet (put v s).1 (put v s).2 = Except.ok v ∧
    (∀ k, storeGet k s = Except.error GetError.KeyNotFound ↔ s.store k = none) := by
  constructor
  · simp [storeGet, put]
  · intro k
    cases hsk : s.store k with
    | none => simp [storeGet, hsk]
    | some w => simp [storeGet, hsk]

/-- Witness for C6 at a concrete value and state. -/
theorem put_get_roundtrip_witness :
    storeGet (put 42 (initState Nat)).1 (put 42 (initState Nat)).2
      = Except.ok 42 ∧
    (∀ k, storeGet k (initState Nat) = Except.error GetError.KeyNotFound ↔
      (initState Nat).store k = none) :=
  put_get_roundtrip 42 (initState Nat)

/-- C7: a future resolves at most once: once a `get` has succeeded, returning
the value and the caching future, a second `get` on that returned future —
against any later scheduler state — returns the identical value and the
unchanged future while performing zero object-store fetches. -/
theorem get_idempotent_cached {V : Type} (fut fut' : Future V)
    (s s' : SchedState V) (v : V) (c : Nat)
    (h : get fut s = (Except.ok v, fut', c)) :
    get fut' s' = (Except.ok v, fut', 0) := by
  have hgoal : fut'.cached = some v → get fut' s' = (Except.ok v, fut', 0) := by
    intro hcc
    unfold get
    rw [hcc]
  unfold get at h
  split at h
  next w hc =>
    simp only [Prod.mk.injEq] at h
    obtain ⟨hv, hf, -⟩ := h
    injection hv with hv
    apply hgoal
    rw [← hf, hc, hv]
  next hc =>
    split at h
    next t hts =>
      split at h
      next k hst =>
        split at h
        next w hsk =>
          simp only [Prod.mk.injEq] at h
          obtain ⟨hv, hf, -⟩ := h
          injection hv with hv
          apply hgoal
          rw [← hf, hv]
        next hsk => simp at h
      next e hst => simp at h
      next hst => simp at h
    next hts => simp at h

/-- A state in which task 0 has completed with result key 0 holding 42. -/
def stateC7 : SchedState Nat where
  store := fun k => if k = 0 then some 42 else none
  nextKey := 1
  tasks := fun n => if n = 0 then some ⟨0, fun _ => Except.ok 42, [], .Completed 0⟩
                    else none
  nextTaskId := 1

/-- Witness for C7: the first `get` fetched 42 from the store once; the
second `get` on the returned future gives 42 again with zero fetches. -/
theorem get_idempotent_cached_witness :
    get (⟨0, some 42⟩ : Future Nat) stateC7 = (Except.ok 42, ⟨0, some 42⟩, 0) :=
  get_idempotent_cached ⟨0, none⟩ ⟨0, some 42⟩ stateC7 stateC7 42 1 rfl

theorem allowedTransition_refl (a : TaskState) : allowedTransition a a = true := by
  simp [allowedTransition]

/-- Any scheduler step either leaves a task slot unchanged or rewrites only
the state of the record in it, along an allowed transition out of a
non-terminal state. -/
theorem schedStep_pointwise {V : Type} (s : SchedState V) (e : Event) (i : Nat) :
    (schedStep s e).tasks i = s.tasks i ∨
    ∃ t st, s.tasks i = some t ∧
      (schedStep s e).tasks i = some { t with state := st } ∧
      allowedTransition t.state st = true ∧ t.state.isTerminal = false := by
  cases e with
  | dispatch id w =>
    simp only [schedStep]
    unfold dispatch
    split
    next t hts =>
      split
      next hst =>
        by_cases hii : i = id
        · subst hii
          refine Or.inr ⟨t, .Running w, hts, ?_, ?_, ?_⟩
          · show (if i = i then _ else _) = _
            rw [if_pos rfl]
          · rw [hst]
            simp [allowedTransition]
          · rw [hst]
            rfl
        · refine Or.inl ?_
          show (if i = id then _ else s.tasks i) = s.tasks i
          rw [if_neg hii]
      next => exact Or.inl rfl
    next => exact Or.inl rfl
  | finish id =>
    simp only [schedStep]
    unfold finishTask
    split
    next t hts =>
      split
      next w hst =>
        split
        next v hcall =>
          by_cases hii : i = id
          · subst hii
            refine Or.inr ⟨t, .Completed (put v s).1, hts, ?_, ?_, ?_⟩
            · show (if i = i then _ else _) = _
              rw [if_pos rfl]
            · rw [hst]
              simp [allowedTransition]
            · rw [hst]
              rfl
          · refine Or.inl ?_
            show (if i = id then _ else s.tasks i) = s.tasks i
            rw [if_neg hii]
        next e hcall =>
          by_cases hii : i = id
          · subst hii
            refine Or.inr ⟨t, .Failed e, hts, ?_, ?_, ?_⟩
            · show (if i = i then _ else _) = _
              rw [if_pos rfl]
            · rw [hst]
              simp [allowedTransition]
            · rw [hst]
              rfl
          · refine Or.inl ?_
            show (if i = id then _ else s.tasks i) = s.tasks i
            rw [if_neg hii]
      next => exact Or.inl rfl
    next => exact Or.inl rfl

/-- C8: task records only ever transition `Queued → Running` and
`Running → {Completed, Failed}`: across any scheduler step, the before/after
states of every record form an allowed transition (in particular no record
re-enters `Queued`), a record in a terminal state is never mutated, and
`submit` — the only operation creating records — leaves every existing record
untouched and creates the new one `Queued` under a fresh id. -/
theorem task_state_machine {V : Type} (s : SchedState V) (e : Event) (i : Nat)
    (t t' : TaskRecord V)
    (hb : s.tasks i = some t) (ha : (schedStep s e).tasks i = some t') :
    (allowedTransition t.state t'.state = true ∧
      (t.state.isTerminal = true → t' = t)) ∧
    (∀ (f : List V → Except String V) (args : List V), ¬ i = s.nextTaskId →
      (submit f args s).2.tasks i = some t) := by
  constructor
  · rcases schedStep_pointwise s e i with hsame | ⟨u, st, hu, hu', hall, hnt⟩
    · rw [hsame, hb] at ha
      injection ha with ha
      rw [ha]
      exact ⟨allowedTransition_refl _, fun _ => rfl⟩
    · rw [hb] at hu
      injection hu with hu
      subst hu
      rw [hu'] at ha
      injection ha with ha
      constructor
      · rw [← ha]
        exact hall
      · intro hterm
        rw [hterm] at hnt
        cases hnt
  · intro f args hne
    show (if i = s.nextTaskId then _ else s.tasks i) = some t
    rw [if_neg hne]
    exact hb

/-- A queued one-task state used as the C8 witness. -/
def stateC8 : SchedState Nat where
  store := fun _ => none
  nextKey := 0
  tasks := fun n => if n = 0 then some ⟨0, fun _ => Except.ok 7, [], .Queued⟩
                    else none
  nextTaskId := 1

/-- Witness for C8: dispatching the queued task 0 performs the allowed
`Queued → Running` transition and `submit` leaves the record alone. -/
theorem task_state_machine_witness :
    (allowedTransition TaskState.Queued (TaskState.Running 3) = true ∧
      (TaskState.isTerminal TaskState.Queued = true →
        (⟨0, fun _ => Except.ok 7, [], .Running 3⟩ : TaskRecord Nat)
          = ⟨0, fun _ => Except.ok 7, [], .Queued⟩)) ∧
    (∀ (f : List Nat → Except String Nat) (args : List Nat), ¬ 0 = stateC8.nextTaskId →
      (submit f args stateC8).2.tasks 0
        = some ⟨0, fun _ => Except.ok 7, [], .Queued⟩) :=
  task_state_machine stateC8 (Event.dispatch 0 3) 0
    ⟨0, fun _ => Except.ok 7, [], .Queued⟩
    ⟨0, fun _ => Except.ok 7, [], .Running 3⟩ rfl rfl

/-- C9: when `get` with a timeout elapses on an unresolved future it signals
`Timeout` with no side effect at all — the future is unchanged (still
uncached) and the scheduler state, hence the task's record, is returned
untouched; the task is not cancelled, and a later `get` on the very same
future succeeds once the task has completed. -/
theorem get_timeout_nonfatal {V : Type} (fut : Future V) (n : Nat)
    (s : SchedState V) (t : TaskRecord V)
    (hcache : fut.cached = none)
    (hts : s.tasks fut.taskId = some t)
    (hnt : t.state.isTerminal = false) :
    getTimeout fut (some n) s = (Except.error GetError.Timeout, fut, s) ∧
    (∀ (s' : SchedState V) (t' : TaskRecord V) (k : Nat) (v : V) (m : Option Nat),
      s'.tasks fut.taskId = some t' → t'.state = .Completed k →
      s'.store k = some v →
      getTimeout fut m s' = (Except.ok v, { fut with cached := some v }, s')) := by
  constructor
  · cases hst : t.state with
    | Completed k => rw [hst] at hnt; cases hnt
    | Failed e => rw [hst] at hnt; cases hnt
    | Queued => simp [getTimeout, hcache, hts, hst]
    | Running w => simp [getTimeout, hcache, hts, hst]
  · intro s' t' k v m hts' hst' hsk'
    simp [getTimeout, hcache, hts', hst', hsk']

/-- A state in which task 0 is still queued; its record. -/
def stateC9 : SchedState Nat where
  store := fun _ => none
  nextKey := 0
  tasks := fun n => if n = 0 then some ⟨0, fun _ => Except.ok 42, [], .Queued⟩
                    else none
  nextTaskId := 1

/-- Witness for C9: the timed-out `get` on the pending task signals `Timeout`
leaving everything untouched, and the same future later succeeds against the
state in which the task completed. -/
theorem get_timeout_nonfatal_witness :
    getTimeout (⟨0, none⟩ : Future Nat) (some 5) stateC9
      = (Except.error GetError.Timeout, ⟨0, none⟩, stateC9) ∧
    getTimeout (⟨0, none⟩ : Future Nat) (some 5) stateC7
      = (Except.ok 42, ⟨0, some 42⟩, stateC7) :=
  ⟨(get_timeout_nonfatal ⟨0, none⟩ 5 stateC9
      ⟨0, fun _ => Except.ok 42, [], .Queued⟩ rfl rfl rfl).1,
   (get_timeout_nonfatal ⟨0, none⟩ 5 stateC9
      ⟨0, fun _ => Except.ok 42, [], .Queued⟩ rfl rfl rfl).2 stateC7
      ⟨0, fun _ => Except.ok 42, [], .Completed 0⟩ 0 42 (some 5) rfl rfl rfl⟩

/-- C10: for the end-to-end scenario of four CPU-bound tasks (positive
durations) run FIFO on two workers, the parallel wall-clock time is strictly
less than the sum of the individual execution times, yet at least the time of
the slowest single task divided by the worker count. -/
theorem parallel_speedup_bounds (d1 d2 d3 d4 : Nat)
    (h1 : 0 < d1) (h2 : 0 < d2) (h3 : 0 < d3) (h4 : 0 < d4) :
    makespan [d1, d2, d3, d4] < d1 + d2 + d3 + d4 ∧
    max (max (max d1 d2) d3) d4 / 2 ≤ makespan [d1, d2, d3, d4] := by
  simp only [makespan, twoWorkerClocks, List.foldl_cons, List.foldl_nil, assignNext,
    Nat.max_def]
  split_ifs <;> constructor <;> omega

/-- Witness for C10 at durations 3, 1, 1, 1: the makespan is 3, which is less
than the total work 6 and at least the slowest task's 3 halved. -/
theorem parallel_speedup_bounds_witness :
    makespan [3, 1, 1, 1] < 3 + 1 + 1 + 1 ∧
    max (max (max 3 1) 1) 1 / 2 ≤ makespan [3, 1, 1, 1] :=
  parallel_speedup_bounds 3 1 1 1 (by decide) (by decide) (by decide) (by decide)

end RayCore
